import Mathlib

/-!
Verification of the Gluster-Dashboard harvesting/caching/synchronization
engine.  The Python sources are shallowly embedded: pure helpers become Lean
functions, generators become functions producing explicit lists, raised
exceptions become `Except`/sum results, and the event order of network calls
and cache operations is recorded as explicit traces.  Machine integers are
`Nat` with explicit `% 2 ^ 32` where 32-bit overflow matters (SHA-1).
-/

/-! ## Identity generator (perceval/backend.py, `uuid`)

`uuid(*args)` joins its arguments with `:` and returns the SHA-1 hex digest
of the UTF-8 encoding of the joined string.  SHA-1 itself (Python `hashlib`)
is implemented bit-for-bit below over byte lists. -/

/-- 32-bit left rotation on a `Nat` holding a value below `2 ^ 32`. -/
def rotl32 (n x : Nat) : Nat :=
  ((x <<< n) ||| (x >>> (32 - n))) &&& 0xFFFFFFFF

/-- Big-endian byte decomposition of `n` into `k` bytes. -/
def bytesBE : Nat → Nat → List Nat
  | 0, _ => []
  | k + 1, n => bytesBE k (n / 256) ++ [n % 256]

/-- SHA-1 padding: append `0x80`, zero bytes up to 56 mod 64, then the
bit length as an 8-byte big-endian number. -/
def sha1pad (msg : List Nat) : List Nat :=
  let zeros := (119 - msg.length % 64) % 64
  msg ++ [0x80] ++ List.replicate zeros 0 ++ bytesBE 8 (msg.length * 8)

/-- Group a byte list into big-endian 32-bit words. -/
def toWords : List Nat → List Nat
  | b0 :: b1 :: b2 :: b3 :: rest =>
      (((b0 * 256 + b1) * 256 + b2) * 256 + b3) :: toWords rest
  | _ => []

/-- Message-schedule extension of the 16 block words to 80 words. -/
def extendWords (w : List Nat) : List Nat :=
  (List.range 64).foldl
    (fun acc _ =>
      let n := acc.length
      acc ++ [rotl32 1 ((acc.getD (n - 3) 0 ^^^ acc.getD (n - 8) 0) ^^^
                        (acc.getD (n - 14) 0 ^^^ acc.getD (n - 16) 0))])
    w

/-- Round function of SHA-1. -/
def sha1f (t b c d : Nat) : Nat :=
  if t < 20 then (b &&& c) ||| ((b ^^^ 0xFFFFFFFF) &&& d)
  else if t < 40 then (b ^^^ c) ^^^ d
  else if t < 60 then ((b &&& c) ||| (b &&& d)) ||| (c &&& d)
  else (b ^^^ c) ^^^ d

/-- Round constants of SHA-1. -/
def sha1k (t : Nat) : Nat :=
  if t < 20 then 0x5A827999
  else if t < 40 then 0x6ED9EBA1
  else if t < 60 then 0x8F1BBCDC
  else 0xCA62C1D6

/-- One SHA-1 compression round on the five-register state. -/
def sha1round (st : Nat × Nat × Nat × Nat × Nat) (tw : Nat × Nat) :
    Nat × Nat × Nat × Nat × Nat :=
  let a := st.1; let b := st.2.1; let c := st.2.2.1
  let d := st.2.2.2.1; let e := st.2.2.2.2
  let temp := (rotl32 5 a + sha1f tw.1 b c d + e + sha1k tw.1 + tw.2) % 4294967296
  (temp, a, rotl32 30 b, c, d)

/-- Process one 64-byte block, updating the five hash words. -/
def sha1block (h : Nat × Nat × Nat × Nat × Nat) (block : List Nat) :
    Nat × Nat × Nat × Nat × Nat :=
  let w := extendWords (toWords block)
  let st := ((List.range 80).zip w).foldl sha1round h
  ((h.1 + st.1) % 4294967296,
   (h.2.1 + st.2.1) % 4294967296,
   (h.2.2.1 + st.2.2.1) % 4294967296,
   (h.2.2.2.1 + st.2.2.2.1) % 4294967296,
   (h.2.2.2.2 + st.2.2.2.2) % 4294967296)

/-- Fuel-driven worker for `chunksOf` (structural recursion so that the
kernel can evaluate it). -/
def chunksGo (k : Nat) (fuel : Nat) (l : List α) : List (List α) :=
  match l with
  | [] => []
  | a :: l =>
    match fuel with
    | 0 => []
    | fuel + 1 => (a :: l.take (k - 1)) :: chunksGo k fuel (l.drop (k - 1))

/-- Split a list into consecutive chunks of `k` elements (last chunk may be
shorter).  This mirrors both the 64-byte block split of SHA-1 and the Python
slicing loop `for i in range(0, n, k): l[i:i+k]` (for `k ≥ 1`). -/
def chunksOf (k : Nat) (l : List α) : List (List α) :=
  chunksGo k l.length l

theorem chunksGo_eq (k : Nat) :
    ∀ (n : Nat) (l : List α) (f : Nat), l.length = n → n ≤ f →
      chunksGo k f l = chunksGo k n l := by
  intro n
  induction n using Nat.strong_induction_on with
  | _ n ih =>
    intro l f hn hf
    cases l with
    | nil => cases f <;> cases n <;> rfl
    | cons a l =>
      subst hn
      have hf' : l.length + 1 ≤ f := by simpa using hf
      obtain ⟨g, rfl⟩ : ∃ g, f = g + 1 := ⟨f - 1, by omega⟩
      have hlg : l.length ≤ g := by omega
      simp only [chunksGo]
      have h1 : (l.drop (k - 1)).length < l.length + 1 := by
        simp only [List.length_drop]; omega
      rw [ih (l.drop (k - 1)).length h1 _ g rfl (by simp only [List.length_drop]; omega),
          ih (l.drop (k - 1)).length h1 _ l.length rfl (by simp only [List.length_drop]; omega)]

@[simp] theorem chunksOf_nil : chunksOf k ([] : List α) = [] := rfl

@[simp] theorem chunksOf_cons (k : Nat) (a : α) (l : List α) :
    chunksOf k (a :: l) = (a :: l.take (k - 1)) :: chunksOf k (l.drop (k - 1)) := by
  simp only [chunksOf, List.length_cons, chunksGo]
  rw [chunksGo_eq k (l.drop (k - 1)).length _ l.length rfl
    (by simp only [List.length_drop]; omega)]

/-- SHA-1 digest (20 bytes) of a byte list. -/
def sha1bytes (msg : List Nat) : List Nat :=
  let h := (chunksOf 64 (sha1pad msg)).foldl sha1block
    (0x67452301, 0xEFCDAB89, 0x98BADCFE, 0x10325476, 0xC3D2E1F0)
  bytesBE 4 h.1 ++ bytesBE 4 h.2.1 ++ bytesBE 4 h.2.2.1 ++
    bytesBE 4 h.2.2.2.1 ++ bytesBE 4 h.2.2.2.2

/-- Lower-case hexadecimal digit. -/
def hexDigit (n : Nat) : Char :=
  if n < 10 then Char.ofNat (48 + n) else Char.ofNat (87 + n)

/-- Lower-case hexadecimal rendering of a byte list. -/
def hexOfBytes (bs : List Nat) : String :=
  ⟨bs.foldr (fun b acc => hexDigit (b / 16) :: hexDigit (b % 16) :: acc) []⟩

/-- UTF-8 encoding of one character as bytes. -/
def utf8Char (c : Char) : List Nat :=
  let n := c.toNat
  if n < 0x80 then [n]
  else if n < 0x800 then
    [0xC0 ||| (n >>> 6), 0x80 ||| (n &&& 0x3F)]
  else if n < 0x10000 then
    [0xE0 ||| (n >>> 12), 0x80 ||| ((n >>> 6) &&& 0x3F), 0x80 ||| (n &&& 0x3F)]
  else
    [0xF0 ||| (n >>> 18), 0x80 ||| ((n >>> 12) &&& 0x3F),
     0x80 ||| ((n >>> 6) &&& 0x3F), 0x80 ||| (n &&& 0x3F)]

/-- UTF-8 encoding of a string as bytes. -/
def utf8Encode (s : String) : List Nat :=
  s.data.foldr (fun c acc => utf8Char c ++ acc) []

/-- `hashlib.sha1(s.encode('utf-8')).hexdigest()`. -/
def sha1hexdigest (s : String) : String :=
  hexOfBytes (sha1bytes (utf8Encode s))

/-- A Python value passed to `uuid`: either a `str` or some non-string value
(carrying its printed representation, used in the error message). -/
inductive PyVal where
  | vstr (s : String)
  | vother (repr : String)
deriving DecidableEq

/-- `check_value` from `perceval/backend.py::uuid`: non-strings and empty
strings raise `ValueError` (modelled as `Except.error` with the message). -/
def check_value : PyVal → Except String String
  | .vstr s => if s = "" then .error "value cannot be None or empty" else .ok s
  | .vother r => .error (r ++ " value is not a string instance")

/-- `map(check_value, args)` as consumed by `str.join`: values are checked
left to right and the first failing one raises. -/
def checkValues : List PyVal → Except String (List String)
  | [] => .ok []
  | v :: vs => do
      let s ← check_value v
      let rest ← checkValues vs
      .ok (s :: rest)

/-- `uuid(*args)` from `perceval/backend.py` lines 186-214: the SHA-1 hex
digest of the arguments joined with a colon, after `check_value` validation. -/
def uuid (args : List PyVal) : Except String String := do
  let strs ← checkValues args
  .ok (sha1hexdigest (String.intercalate ":" strs))

/-- The underlying string of a `PyVal` (used to state what `uuid` hashes). -/
def strOf : PyVal → String
  | .vstr s => s
  | .vother r => r

theorem checkValues_ok (args : List PyVal)
    (h : ∀ v ∈ args, ∃ s, v = PyVal.vstr s ∧ s ≠ "") :
    checkValues args = .ok (args.map strOf) := by
  induction args with
  | nil => rfl
  | cons v vs ih =>
    obtain ⟨s, rfl, hs⟩ := h v (List.mem_cons_self v vs)
    simp only [checkValues, check_value, if_neg hs,
      ih (fun w hw => h w (List.mem_cons_of_mem _ hw)), List.map_cons]
    rfl

theorem checkValues_error (args : List PyVal)
    (h : ∃ v ∈ args, v = PyVal.vstr "" ∨ ∀ s, v ≠ PyVal.vstr s) :
    ∃ msg, checkValues args = .error msg := by
  induction args with
  | nil => obtain ⟨v, hv, _⟩ := h; exact absurd hv (List.not_mem_nil v)
  | cons v vs ih =>
    cases v with
    | vother r => exact ⟨_, rfl⟩
    | vstr s =>
      by_cases hs : s = ""
      · subst hs; exact ⟨_, rfl⟩
      · obtain ⟨w, hw, hbad⟩ := h
        have hwvs : w ∈ vs := by
          rcases List.mem_cons.mp hw with heq | hmem
          · exfalso
            subst heq
            rcases hbad with heq2 | hns
            · injection heq2 with h3; exact hs h3
            · exact hns s rfl
          · exact hmem
        obtain ⟨msg, hmsg⟩ := ih ⟨w, hwvs, hbad⟩
        refine ⟨msg, ?_⟩
        simp only [checkValues, check_value, if_neg hs, hmsg]
        rfl

/-- Claim C1: `uuid(*args)` (perceval/backend.py lines 186-214) returns, for
argument lists of non-empty strings, the SHA-1 hex digest of the arguments
joined with `:`; it is deterministic (the embedding is a pure function, so
equal argument lists give equal results); and any argument that is not a
string or is the empty string makes it raise `ValueError` instead. -/
theorem uuid_spec (args : List PyVal) :
    ((∀ v ∈ args, ∃ s, v = PyVal.vstr s ∧ s ≠ "") →
      uuid args = .ok (sha1hexdigest (String.intercalate ":" (args.map strOf))))
    ∧ (∀ args2, args = args2 → uuid args = uuid args2)
    ∧ ((∃ v ∈ args, v = PyVal.vstr "" ∨ ∀ s, v ≠ PyVal.vstr s) →
      ∃ msg, uuid args = .error msg) := by
  refine ⟨fun h => ?_, fun args2 h => by rw [h], fun h => ?_⟩
  · simp only [uuid, checkValues_ok args h]
    rfl
  · obtain ⟨msg, hmsg⟩ := checkValues_error args h
    exact ⟨msg, by simp only [uuid, hmsg]; rfl⟩

set_option maxRecDepth 100000 in
/-- Witness for C1 at concrete inputs: the digest of
`uuid("http://example.com", "1")` matches the SHA-1 of
`"http://example.com:1"` computed independently, and an empty-string
argument raises. -/
theorem uuid_spec_witness :
    uuid [PyVal.vstr "http://example.com", PyVal.vstr "1"] =
      .ok "6a7ba2a01aee56603b9d8a5f6b40c843fc089b2f"
    ∧ (∃ msg, uuid [PyVal.vstr "a", PyVal.vstr "", PyVal.vstr "b"] = .error msg) := by
  constructor
  · have h := (uuid_spec [PyVal.vstr "http://example.com", PyVal.vstr "1"]).1 ?_
    · rw [h]; rfl
    · intro v hv
      rcases List.mem_cons.mp hv with rfl | hv
      · exact ⟨_, rfl, by decide⟩
      rcases List.mem_cons.mp hv with rfl | hv
      · exact ⟨_, rfl, by decide⟩
      exact absurd hv (List.not_mem_nil v)
  · exact (uuid_spec [PyVal.vstr "a", PyVal.vstr "", PyVal.vstr "b"]).2.2
      ⟨PyVal.vstr "", by simp, Or.inl rfl⟩

/-! ## Bugzilla connector (perceval/backends/bugzilla.py)

Raw server payloads are embedded structurally: a `RawBlock.bugsXml` value
stands for a `show_bug.cgi` XML response that parses to the given list of
bug dictionaries, and `RawBlock.activityHtml` for a `show_activity.cgi`
HTML response that parses to the given activity events.  Parsing a block of
the wrong kind fails exactly as in the source: `parse_bugs_details` raises
`ParseError` when the XML dictionary has no `bug` key, and
`parse_bug_activity` raises `ParseError` when no activity table is found. -/

/-- One row of the CSV buglist (`parse_buglist`): the summary of a bug.
`changeddate` is the parsed timestamp in seconds (`str_to_datetime`). -/
structure BuglistRow where
  bug_id : String
  changeddate : Nat
deriving DecidableEq

/-- A parsed bug dictionary from the details XML.  `bug_id` models
`bug['bug_id'][0]['__text__']` and `delta_ts` models
`bug['delta_ts'][0]['__text__']` (the source-reported update time). -/
structure BugData where
  bug_id : String
  delta_ts : String
deriving DecidableEq

/-- A raw cached/fetched payload block, before parsing. -/
inductive RawBlock where
  | bugsXml (bugs : List BugData)
  | activityHtml (events : List String)
deriving DecidableEq

/-- `get_update_time` (bugzilla.py lines 45-47): extracts `delta_ts` text. -/
def get_update_time (item : BugData) : String :=
  item.delta_ts

/-- `Bugzilla.parse_bugs_details`: raises `ParseError` when the XML stream
holds no bugs (no `bug` key), otherwise yields the parsed bugs. -/
def parse_bugs_details : RawBlock → Except String (List BugData)
  | .bugsXml [] => .error "No bugs found. XML stream seems to be invalid."
  | .bugsXml (b :: bs) => .ok (b :: bs)
  | .activityHtml _ => .error "No bugs found. XML stream seems to be invalid."

/-- `Bugzilla.parse_bug_activity`: yields the events of an activity HTML
page; on a details XML page no 5-column activity table exists, so it raises
`ParseError`. -/
def parse_bug_activity : RawBlock → Except String (List String)
  | .activityHtml evs => .ok evs
  | .bugsXml _ => .error "Table of bug activity not found."

/-- The changed date of the last row of a buglist page (the value held by
`last_date` after the page has been drained); 0 for an empty page, a case
the enumeration never reaches. -/
def lastChangedDate (p : List BuglistRow) : Nat :=
  (p.getLastD ⟨"", 0⟩).changeddate

/-- `Bugzilla.__fetch_buglist` (lines 159-173) run against a fixed sequence
of server buglist pages: the first page is requested at `fromDate`; after a
non-empty page is drained, the next page is requested at the changed date
of its last bug plus one second; an empty page ends the enumeration.
Returns the yielded rows together with the list of `chfieldfrom` query
timestamps issued, in order. -/
def fetchBuglist : Nat → List (List BuglistRow) → List BuglistRow × List Nat
  | d, [] => ([], [d])
  | d, p :: ps =>
    match p with
    | [] => ([], [d])
    | b :: bs =>
      let r := fetchBuglist (lastChangedDate (b :: bs) + 1) ps
      ((b :: bs) ++ r.1, d :: r.2)

/-- The Bugzilla server as seen by the detail-fetch stage: `detail i` is the
bug dictionary the server returns for id `i` (a `show_bug.cgi` query for a
list of ids returns their bugs in request order, in one XML block), and
`activity i` is the parsed content of the activity page of bug `i`. -/
structure BzServer where
  detail : String → BugData
  activity : String → List String

/-- Events observed while `Bugzilla.fetch` runs: network calls
(`show_bug.cgi` grouped detail queries, `show_activity.cgi` queries),
cache-queue pushes and cache-queue flushes. -/
inductive FetchEv where
  | callBugs (ids : List String)
  | callActivity (bugId : String)
  | push (b : RawBlock)
  | flush
deriving DecidableEq

/-- A fully assembled record yielded by `fetch`/`fetch_from_cache`: the bug
dictionary with its activity list attached under `bug['activity']`. -/
structure BugRec where
  data : BugData
  activity : List String
deriving DecidableEq

/-- The inner loop of `Bugzilla.fetch` over one chunk's parsed bugs (lines
100-104 together with `__fetch_and_parse_bug_activity`): for each bug, call
`show_activity.cgi`, push the raw activity on the cache queue, attach the
parsed events and yield the bug.  State-passes the cache queue; returns
(yielded records, events, final queue). -/
def fetchActivities (srv : BzServer) (q : List RawBlock) :
    List BugData → List BugRec × List FetchEv × List RawBlock
  | [] => ([], [], q)
  | d :: rest =>
    let raw := RawBlock.activityHtml (srv.activity d.bug_id)
    let r := fetchActivities srv (q ++ [raw]) rest
    (⟨d, srv.activity d.bug_id⟩ :: r.1,
     .callActivity d.bug_id :: .push raw :: r.2.1,
     r.2.2)

/-- The chunk loop of `Bugzilla.fetch` (lines 93-106): for each chunk of bug
ids, call `show_bug.cgi` for the whole chunk, push the raw XML on the cache
queue, parse it, process every bug of the chunk, then flush the cache queue
(which appends the queued blocks to the cache and empties the queue).
Returns (yielded records, events, blocks stored in the cache), or the
`ParseError` raised if a details block fails to parse. -/
def fetchChunks (srv : BzServer) :
    List RawBlock → List (List String) → Except String (List BugRec × List FetchEv × List RawBlock)
  | _q, [] => .ok ([], [], [])
  | q, ids :: rest =>
    let raw := RawBlock.bugsXml (ids.map srv.detail)
    match parse_bugs_details raw with
    | .error e => .error e
    | .ok bugs =>
      let r := fetchActivities srv (q ++ [raw]) bugs
      match fetchChunks srv [] rest with
      | .error e => .error e
      | .ok r2 =>
        .ok (r.1 ++ r2.1,
             (.callBugs ids :: .push raw :: r.2.1) ++ (.flush :: r2.2.1),
             r.2.2 ++ r2.2.2)

/-- The detail-fetch stage of `Bugzilla.fetch` for a candidate id list:
`self.max_bugs = max(1, max_bugs)` chunks the list, and the stage starts
with an empty cache queue (`_purge_cache_queue`). -/
def bugzillaFetchDetails (srv : BzServer) (max_bugs : Nat) (ids : List String) :
    Except String (List BugRec × List FetchEv × List RawBlock) :=
  fetchChunks srv [] (chunksOf (max 1 max_bugs) ids)

/-- `Bugzilla.fetch(from_date)` (lines 69-109) against a fixed server: drain
the buglist pages, then run the chunked detail-fetch stage over the listed
bug ids. -/
def bugzillaFetch (srv : BzServer) (max_bugs : Nat) (from_date : Nat)
    (pages : List (List BuglistRow)) :
    Except String (List BugRec × List FetchEv × List RawBlock) :=
  bugzillaFetchDetails srv max_bugs ((fetchBuglist from_date pages).1.map (·.bug_id))

/-- Claim C7: for every `from_date` and every sequence of buglist pages
returned by the server, `__fetch_buglist` yields the bugs of each non-empty
page in order, issues the first query at `from_date` and each following
query at the changed date of the last bug of the previous (non-empty) page
plus one second, and terminates exactly at the first empty page. -/
theorem fetch_buglist_paging (d : Nat) (pages : List (List BuglistRow)) :
    fetchBuglist d pages =
      ((pages.takeWhile (fun p => !p.isEmpty)).flatten,
       d :: (pages.takeWhile (fun p => !p.isEmpty)).map
         (fun p => lastChangedDate p + 1)) := by
  induction pages generalizing d with
  | nil => rfl
  | cons p ps ih =>
    cases p with
    | nil => rfl
    | cons b bs =>
      show ((b :: bs) ++ (fetchBuglist (lastChangedDate (b :: bs) + 1) ps).1,
            d :: (fetchBuglist (lastChangedDate (b :: bs) + 1) ps).2) = _
      rw [ih]
      simp [List.takeWhile]

theorem chunksOf_length {α : Type _} (k : Nat) (hk : 1 ≤ k) :
    ∀ (n : Nat) (l : List α), l.length = n →
      (chunksOf k l).length = (l.length + k - 1) / k := by
  intro n
  induction n using Nat.strong_induction_on with
  | _ n ih =>
    intro l hn
    cases l with
    | nil =>
      simp only [chunksOf_nil, List.length_nil]
      rw [Nat.div_eq_of_lt (by omega)]
    | cons a l =>
      subst hn
      have hd : (l.drop (k - 1)).length < (a :: l).length := by
        simp only [List.length_drop, List.length_cons]; omega
      rw [chunksOf_cons, List.length_cons,
        ih (l.drop (k - 1)).length hd _ rfl, List.length_drop, List.length_cons]
      have h1 : l.length + 1 + k - 1 = l.length + k := by omega
      rw [h1, Nat.add_div_right _ (by omega)]
      rcases le_or_lt (k - 1) l.length with h | h
      · have h2 : l.length - (k - 1) + k - 1 = l.length := by omega
        rw [h2]
      · have h2 : l.length - (k - 1) = 0 := by omega
        rw [h2, Nat.div_eq_of_lt (by omega), Nat.div_eq_of_lt (by omega)]

theorem chunksOf_flatten {α : Type _} (k : Nat) (hk : 1 ≤ k) :
    ∀ (n : Nat) (l : List α), l.length = n → (chunksOf k l).flatten = l := by
  intro n
  induction n using Nat.strong_induction_on with
  | _ n ih =>
    intro l hn
    cases l with
    | nil => rfl
    | cons a l =>
      subst hn
      have hd : (l.drop (k - 1)).length < (a :: l).length := by
        simp only [List.length_drop, List.length_cons]; omega
      rw [chunksOf_cons, List.flatten_cons, ih (l.drop (k - 1)).length hd _ rfl]
      simp [List.take_append_drop]

theorem chunksOf_ne_nil {α : Type _} (k : Nat) :
    ∀ (n : Nat) (l : List α), l.length = n → ∀ c ∈ chunksOf k l, c ≠ [] := by
  intro n
  induction n using Nat.strong_induction_on with
  | _ n ih =>
    intro l hn c hc
    cases l with
    | nil => simp only [chunksOf_nil] at hc; exact absurd hc (List.not_mem_nil c)
    | cons a l =>
      subst hn
      rw [chunksOf_cons] at hc
      rcases List.mem_cons.mp hc with rfl | hc
      · exact List.cons_ne_nil _ _
      · have hd : (l.drop (k - 1)).length < (a :: l).length := by
          simp only [List.length_drop, List.length_cons]; omega
        exact ih (l.drop (k - 1)).length hd _ rfl c hc

/-- The fully assembled record the detail stage produces for bug id `i`. -/
def assembledRec (srv : BzServer) (i : String) : BugRec :=
  ⟨srv.detail i, srv.activity (srv.detail i).bug_id⟩

/-- The expected event trace of one chunk of the detail stage: the grouped
details call, its cache push, per-bug activity calls and pushes, and the
single flush that closes the chunk. -/
def chunkTrace (srv : BzServer) (ids : List String) : List FetchEv :=
  .callBugs ids :: .push (.bugsXml (ids.map srv.detail)) ::
    ((ids.map (fun i => [FetchEv.callActivity (srv.detail i).bug_id,
        .push (.activityHtml (srv.activity (srv.detail i).bug_id))])).flatten
      ++ [.flush])

/-- The blocks one chunk's flush appends to the cache: the chunk's details
block followed by one activity block per bug of the chunk. -/
def chunkBlocks (srv : BzServer) (ids : List String) : List RawBlock :=
  .bugsXml (ids.map srv.detail) ::
    ids.map (fun i => .activityHtml (srv.activity (srv.detail i).bug_id))

theorem fetchActivities_spec (srv : BzServer) :
    ∀ (bugs : List BugData) (q : List RawBlock),
      fetchActivities srv q bugs =
        (bugs.map (fun d => ⟨d, srv.activity d.bug_id⟩),
         (bugs.map (fun d => [FetchEv.callActivity d.bug_id,
            .push (.activityHtml (srv.activity d.bug_id))])).flatten,
         q ++ bugs.map (fun d => RawBlock.activityHtml (srv.activity d.bug_id))) := by
  intro bugs
  induction bugs with
  | nil => intro q; simp [fetchActivities]
  | cons d rest ih =>
    intro q
    simp [fetchActivities, ih]

theorem fetchChunks_spec (srv : BzServer) :
    ∀ (chunks : List (List String)), (∀ c ∈ chunks, c ≠ []) →
      fetchChunks srv [] chunks =
        .ok ((chunks.map (fun c => c.map (assembledRec srv))).flatten,
             (chunks.map (chunkTrace srv)).flatten,
             (chunks.map (chunkBlocks srv)).flatten) := by
  intro chunks
  induction chunks with
  | nil => intro _; rfl
  | cons c rest ih =>
    intro h
    obtain ⟨i, is, rfl⟩ : ∃ i is, c = i :: is := by
      cases c with
      | nil => exact absurd rfl (h [] (List.mem_cons_self _ _))
      | cons i is => exact ⟨i, is, rfl⟩
    simp only [fetchChunks, List.map_cons, parse_bugs_details,
      fetchActivities_spec, ih (fun c hc => h c (List.mem_cons_of_mem _ hc))]
    simp [chunkTrace, chunkBlocks, assembledRec, Function.comp_def]

/-- Does an event record a grouped `show_bug.cgi` details call? -/
def isCallBugs : FetchEv → Bool
  | .callBugs _ => true
  | _ => false

/-- Does an event record a cache-queue flush? -/
def isFlushEv : FetchEv → Bool
  | .flush => true
  | _ => false

theorem countP_flatten (p : α → Bool) :
    ∀ L : List (List α), L.flatten.countP p = (L.map (List.countP p)).sum := by
  intro L
  induction L with
  | nil => rfl
  | cons l ls ih => simp [List.countP_append, ih]

theorem sum_map_one (L : List α) : (L.map fun _ => (1 : Nat)).sum = L.length := by
  induction L with
  | nil => rfl
  | cons a l ih => simp [ih]; omega

theorem chunkTrace_countP_callBugs (srv : BzServer) (ids : List String) :
    (chunkTrace srv ids).countP isCallBugs = 1 := by
  simp only [chunkTrace, List.countP_cons, List.countP_append, countP_flatten,
    List.map_map]
  have h : ∀ i : String,
      (List.countP isCallBugs ∘ fun i =>
        [FetchEv.callActivity (srv.detail i).bug_id,
         FetchEv.push (RawBlock.activityHtml (srv.activity (srv.detail i).bug_id))]) i
        = 0 := fun i => rfl
  simp [h, isCallBugs, List.sum_eq_zero]

theorem chunkTrace_countP_flush (srv : BzServer) (ids : List String) :
    (chunkTrace srv ids).countP isFlushEv = 1 := by
  simp only [chunkTrace, List.countP_cons, List.countP_append, countP_flatten,
    List.map_map]
  have h : ∀ i : String,
      (List.countP isFlushEv ∘ fun i =>
        [FetchEv.callActivity (srv.detail i).bug_id,
         FetchEv.push (RawBlock.activityHtml (srv.activity (srv.detail i).bug_id))]) i
        = 0 := fun i => rfl
  simp [h, isFlushEv, List.sum_eq_zero]

/-- Claim C8: for every candidate bug-id list of length `N` and configured
chunk size `K = max(1, max_bugs) ≥ 1`, the detail-fetch stage of
`Bugzilla.fetch` issues exactly `⌈N/K⌉ = (N + K - 1) / K` grouped
`show_bug.cgi` calls, yields exactly `N` fully assembled records (each with
its activity attached) in original id order, and flushes the cache queue
exactly once per chunk, after that chunk's details and activities have been
queued: the whole event trace is the concatenation of the per-chunk traces
`chunkTrace`, each of which ends with its single `flush` after its pushes. -/
theorem bugzilla_chunked_fetch (srv : BzServer) (max_bugs : Nat) (ids : List String) :
    ∃ recs evs stored,
      bugzillaFetchDetails srv max_bugs ids = .ok (recs, evs, stored)
      ∧ recs = ids.map (assembledRec srv)
      ∧ recs.length = ids.length
      ∧ evs = ((chunksOf (max 1 max_bugs) ids).map (chunkTrace srv)).flatten
      ∧ evs.countP isCallBugs = (ids.length + max 1 max_bugs - 1) / max 1 max_bugs
      ∧ evs.countP isFlushEv = (ids.length + max 1 max_bugs - 1) / max 1 max_bugs
      ∧ stored = ((chunksOf (max 1 max_bugs) ids).map (chunkBlocks srv)).flatten := by
  have hK : 1 ≤ max 1 max_bugs := le_max_left _ _
  have hne := chunksOf_ne_nil (max 1 max_bugs) ids.length ids rfl
  have hlen := chunksOf_length (max 1 max_bugs) hK ids.length ids rfl
  have hflat := chunksOf_flatten (max 1 max_bugs) hK ids.length ids rfl
  refine ⟨_, _, _, fetchChunks_spec srv _ hne, ?_, ?_, rfl, ?_, ?_, rfl⟩
  · rw [← List.map_flatten, hflat]
  · rw [← List.map_flatten, hflat, List.length_map]
  · rw [countP_flatten, List.map_map]
    have h : ∀ c ∈ chunksOf (max 1 max_bugs) ids,
        (List.countP isCallBugs ∘ chunkTrace srv) c = (fun _ => (1 : Nat)) c :=
      fun c _ => chunkTrace_countP_callBugs srv c
    rw [List.map_congr_left h, sum_map_one, hlen]
  · rw [countP_flatten, List.map_map]
    have h : ∀ c ∈ chunksOf (max 1 max_bugs) ids,
        (List.countP isFlushEv ∘ chunkTrace srv) c = (fun _ => (1 : Nat)) c :=
      fun c _ => chunkTrace_countP_flush srv c
    rw [List.map_congr_left h, sum_map_one, hlen]

/-- Errors `fetch_from_cache` can raise: `CacheError` when no cache object
was provided, `CacheError` when the cache is exhausted mid-pair, and the
`ParseError`s propagated from the parsing helpers. -/
inductive ReplayErr where
  | cacheNotProvided
  | cacheExhausted (cause : String)
  | parseError (cause : String)
deriving DecidableEq

/-- The replay loops of `Bugzilla.fetch_from_cache` (lines 134-154), with
the bugs of the current details block still awaiting their activity block
carried as `pending`: when `pending` is empty the outer `while` reads the
next block and parses it as bug details (ending cleanly if the cache is
exhausted); when bugs are pending, the inner `for` reads the next block as
the activity of the first pending bug, raising `CacheError` if the cache is
exhausted there. -/
def replayRun (pending : List BugData) (blocks : List RawBlock) :
    Except ReplayErr (List BugRec) :=
  match pending, blocks with
  | [], [] => .ok []
  | [], blk :: rest =>
    match parse_bugs_details blk with
    | .error e => .error (.parseError e)
    | .ok bugs => replayRun bugs rest
  | _ :: _, [] =>
    .error (.cacheExhausted "cache is exhausted but more items were expected")
  | d :: ds, blk :: rest =>
    match parse_bug_activity blk with
    | .error e => .error (.parseError e)
    | .ok evs =>
      match replayRun ds rest with
      | .error e => .error e
      | .ok recs => .ok (⟨d, evs⟩ :: recs)
termination_by blocks.length

/-- `Bugzilla.fetch_from_cache` (lines 111-157).  `none` models a connector
constructed without a cache object; `some blocks` models a cache whose
`retrieve()` returns the previously stored blocks in order (Replay Cache
contract of the spec; cache.py itself is not among the sources).  The
second component is the list of network calls issued: the replay path
contains no client call, so it is empty by construction. -/
def fetch_from_cache (cache : Option (List RawBlock)) :
    Except ReplayErr (List BugRec) × List FetchEv :=
  match cache with
  | none => (.error .cacheNotProvided, [])
  | some blocks => (replayRun [] blocks, [])

theorem replayRun_acts (srv : BzServer) :
    ∀ (bs : List BugData) (rest : List RawBlock),
      replayRun bs ((bs.map fun d => RawBlock.activityHtml (srv.activity d.bug_id)) ++ rest)
        = (replayRun [] rest).map
            (fun recs => (bs.map fun d => (⟨d, srv.activity d.bug_id⟩ : BugRec)) ++ recs) := by
  intro bs
  induction bs with
  | nil =>
    intro rest
    cases h : replayRun [] rest with
    | ok recs => simp [Except.map, h]
    | error e => simp [Except.map, h]
  | cons d ds ih =>
    intro rest
    simp only [List.map_cons, List.cons_append, replayRun, parse_bug_activity, ih]
    cases h : replayRun [] rest with
    | ok recs => simp [Except.map, h]
    | error e => simp [Except.map, h]

theorem replayRun_chunkBlocks (srv : BzServer) :
    ∀ (chunks : List (List String)), (∀ c ∈ chunks, c ≠ []) →
      replayRun [] ((chunks.map (chunkBlocks srv)).flatten)
        = .ok ((chunks.map (fun c => c.map (assembledRec srv))).flatten) := by
  intro chunks
  induction chunks with
  | nil => intro _; simp [replayRun]
  | cons c rest ih =>
    intro h
    obtain ⟨i, is, rfl⟩ : ∃ i is, c = i :: is := by
      cases c with
      | nil => exact absurd rfl (h [] (List.mem_cons_self _ _))
      | cons i is => exact ⟨i, is, rfl⟩
    simp only [chunkBlocks, List.map_cons, List.flatten_cons, List.cons_append,
      List.append_assoc, replayRun, parse_bugs_details, parse_bug_activity]
    rw [show is.map (fun j => RawBlock.activityHtml (srv.activity (srv.detail j).bug_id))
        = (is.map srv.detail).map (fun d => RawBlock.activityHtml (srv.activity d.bug_id)) from by
      simp [Function.comp_def]]
    rw [replayRun_acts srv, ih (fun c hc => h c (List.mem_cons_of_mem _ hc))]
    simp [Except.map, assembledRec, Function.comp_def]

/-- Modelled from the spec: the metadata wrapper (the matching perceval
backend.py of this snapshot is not among the sources; the spec's Record
contract, section 3, makes `uuid` the Identity Generator applied to the
origin and the record id extracted from the raw item). -/
def recUuid (origin : String) (r : BugRec) : Except String String :=
  uuid [.vstr origin, .vstr r.data.bug_id]

/-- The source-reported update time of a wrapped record:
`get_update_time` (bugzilla.py lines 45-47) applied to the bug data. -/
def recUpdatedOn (r : BugRec) : String :=
  get_update_time r.data

/-- Claim C2: for any fixed sequence of raw server responses (buglist pages
plus per-id details and activities), running `fetch` (which caches raw
blocks while fetching) and then `fetch_from_cache` on the stored blocks
yields record sequences equal in length, element-by-element equal in uuid
and in source-reported update time (the replayed records are in fact
identical), with `fetch_from_cache` issuing zero network calls. -/
theorem bugzilla_cache_roundtrip (srv : BzServer) (max_bugs from_date : Nat)
    (pages : List (List BuglistRow)) (origin : String) :
    ∃ recs evs stored cached,
      bugzillaFetch srv max_bugs from_date pages = .ok (recs, evs, stored)
      ∧ fetch_from_cache (some stored) = (.ok cached, [])
      ∧ cached.length = recs.length
      ∧ cached.map (recUuid origin) = recs.map (recUuid origin)
      ∧ cached.map recUpdatedOn = recs.map recUpdatedOn := by
  have hne := chunksOf_ne_nil (max 1 max_bugs)
    ((fetchBuglist from_date pages).1.map (·.bug_id)).length
    ((fetchBuglist from_date pages).1.map (·.bug_id)) rfl
  refine ⟨_, _, _, _, fetchChunks_spec srv _ hne, ?_, rfl, rfl, rfl⟩
  show (replayRun [] _, ([] : List FetchEv)) = _
  rw [replayRun_chunkBlocks srv _ hne]

/-- Is a raw block an activity page? -/
def isActivityBlock : RawBlock → Bool
  | .activityHtml _ => true
  | .bugsXml _ => false

/-- A fully well-paired cached sequence: each details block holding `k`
bugs is immediately followed by exactly `k` activity blocks. -/
inductive PairedSeq : List RawBlock → Prop
  | nil : PairedSeq []
  | cons (bs : List BugData) (acts rest : List RawBlock) :
      bs ≠ [] → acts.length = bs.length → (∀ a ∈ acts, isActivityBlock a) →
      PairedSeq rest → PairedSeq (.bugsXml bs :: acts ++ rest)

/-- The cache runs out mid-pair: after a well-paired prefix, a details
block parses to bugs but the following activity blocks run out before
every parsed bug got one. -/
def ExhaustMidPair (blocks : List RawBlock) : Prop :=
  ∃ pre bs acts, blocks = pre ++ RawBlock.bugsXml bs :: acts
    ∧ PairedSeq pre ∧ bs ≠ [] ∧ (∀ a ∈ acts, isActivityBlock a)
    ∧ acts.length < bs.length

/-- Exhaustion as seen from a replay state with `pending` bugs still owed
their activity blocks. -/
def PendingExhausts (pending : List BugData) (blocks : List RawBlock) : Prop :=
  ((∀ a ∈ blocks, isActivityBlock a) ∧ blocks.length < pending.length)
  ∨ (∃ acts rest, blocks = acts ++ rest ∧ acts.length = pending.length
      ∧ (∀ a ∈ acts, isActivityBlock a) ∧ ExhaustMidPair rest)

/-- Did the replay raise a `CacheError` (of either kind)? -/
def isCacheError : Except ReplayErr (List BugRec) → Bool
  | .error .cacheNotProvided => true
  | .error (.cacheExhausted _) => true
  | _ => false

theorem pendingExhausts_nil_pending (blocks : List RawBlock) :
    PendingExhausts [] blocks ↔ ExhaustMidPair blocks := by
  constructor
  · rintro (⟨_, h⟩ | ⟨acts, rest, heq, hlen, _, hemp⟩)
    · simp at h
    · have : acts = [] := List.eq_nil_of_length_eq_zero hlen
      subst this
      simpa using heq ▸ hemp
  · intro h
    exact Or.inr ⟨[], blocks, rfl, rfl, by simp, h⟩

theorem exhaustMidPair_nil : ¬ ExhaustMidPair [] := by
  rintro ⟨pre, bs, acts, heq, -, -, -, -⟩
  exact absurd heq.symm (by simp)

theorem exhaustMidPair_emptyBugs (rest : List RawBlock) :
    ¬ ExhaustMidPair (RawBlock.bugsXml [] :: rest) := by
  rintro ⟨pre, bs, acts, heq, hpre, hbs, -, -⟩
  cases hpre with
  | nil =>
    simp only [List.nil_append, List.cons.injEq] at heq
    exact hbs (RawBlock.bugsXml.inj heq.1).symm
  | cons bs0 acts0 rest0 hne0 _ _ _ =>
    simp only [List.cons_append, List.cons.injEq] at heq
    exact hne0 (RawBlock.bugsXml.inj heq.1.symm)

theorem exhaustMidPair_activityHead (evs : List String) (rest : List RawBlock) :
    ¬ ExhaustMidPair (RawBlock.activityHtml evs :: rest) := by
  rintro ⟨pre, bs, acts, heq, hpre, -, -, -⟩
  cases hpre with
  | nil => simp at heq
  | cons bs0 acts0 rest0 _ _ _ _ => simp at heq

theorem pendingExhausts_bugsHead (d : BugData) (ds : List BugData)
    (bs : List BugData) (rest : List RawBlock) :
    ¬ PendingExhausts (d :: ds) (RawBlock.bugsXml bs :: rest) := by
  rintro (⟨hact, -⟩ | ⟨acts, rest2, heq, hlen, hact, -⟩)
  · have := hact _ (List.mem_cons_self _ _)
    simp [isActivityBlock] at this
  · cases acts with
    | nil => simp at hlen
    | cons a acts =>
      simp only [List.cons_append, List.cons.injEq] at heq
      have := hact a (List.mem_cons_self _ _)
      rw [← heq.1] at this
      simp [isActivityBlock] at this

theorem pendingExhausts_activity_cons (d : BugData) (ds : List BugData)
    (evs : List String) (rest : List RawBlock) :
    PendingExhausts (d :: ds) (RawBlock.activityHtml evs :: rest) ↔
      PendingExhausts ds rest := by
  constructor
  · rintro (⟨hact, hlt⟩ | ⟨acts, rest2, heq, hlen, hact, hemp⟩)
    · refine Or.inl ⟨fun a ha => hact a (List.mem_cons_of_mem _ ha), ?_⟩
      simp only [List.length_cons] at hlt; omega
    · cases acts with
      | nil => simp at hlen
      | cons a acts =>
        simp only [List.cons_append, List.cons.injEq] at heq
        obtain ⟨heq1, heq2⟩ := heq
        refine Or.inr ⟨acts, rest2, heq2, by simpa using hlen,
          fun x hx => hact x (List.mem_cons_of_mem _ hx), hemp⟩
  · rintro (⟨hact, hlt⟩ | ⟨acts, rest2, heq, hlen, hact, hemp⟩)
    · refine Or.inl ⟨?_, by simp only [List.length_cons]; omega⟩
      intro a ha
      rcases List.mem_cons.mp ha with rfl | ha
      · rfl
      · exact hact a ha
    · refine Or.inr ⟨RawBlock.activityHtml evs :: acts, rest2, by simp [heq],
        by simpa using hlen, ?_, hemp⟩
      intro a ha
      rcases List.mem_cons.mp ha with rfl | ha
      · rfl
      · exact hact a ha

theorem exhaustMidPair_bugs_cons (b : BugData) (bs : List BugData)
    (rest : List RawBlock) :
    ExhaustMidPair (RawBlock.bugsXml (b :: bs) :: rest) ↔
      PendingExhausts (b :: bs) rest := by
  constructor
  · rintro ⟨pre, bs2, acts, heq, hpre, hbs2, hact, hlt⟩
    cases hpre with
    | nil =>
      simp only [List.nil_append, List.cons.injEq] at heq
      obtain ⟨h1, h2⟩ := heq
      have hb := RawBlock.bugsXml.inj h1
      subst h2
      exact Or.inl ⟨hact, by rw [hb]; exact hlt⟩
    | cons bs0 acts0 rest0 hne0 hlen0 hact0 hrest0 =>
      simp only [List.cons_append, List.cons.injEq, List.append_assoc] at heq
      obtain ⟨h1, h2⟩ := heq
      have hb := RawBlock.bugsXml.inj h1
      exact Or.inr ⟨acts0, rest0 ++ RawBlock.bugsXml bs2 :: acts, h2,
        by rw [hlen0, ← hb], hact0, ⟨rest0, bs2, acts, rfl, hrest0, hbs2, hact, hlt⟩⟩
  · rintro (⟨hact, hlt⟩ | ⟨acts, rest2, heq, hlen, hact, hemp⟩)
    · exact ⟨[], b :: bs, rest, rfl, PairedSeq.nil, List.cons_ne_nil _ _, hact, hlt⟩
    · obtain ⟨pre2, bs2, acts2, heq2, hpre2, hbs2, hact2, hlt2⟩ := hemp
      refine ⟨RawBlock.bugsXml (b :: bs) :: (acts ++ pre2), bs2, acts2, ?_, ?_, hbs2, hact2, hlt2⟩
      · rw [heq, heq2]; simp [List.append_assoc]
      · exact PairedSeq.cons (b :: bs) acts pre2 (List.cons_ne_nil _ _) hlen hact hpre2

theorem replayRun_cacheError_iff :
    ∀ (n : Nat) (blocks : List RawBlock) (pending : List BugData),
      blocks.length = n →
      (isCacheError (replayRun pending blocks) = true ↔ PendingExhausts pending blocks) := by
  intro n
  induction n using Nat.strong_induction_on with
  | _ n ih =>
    intro blocks pending hn
    cases pending with
    | nil =>
      cases blocks with
      | nil =>
        rw [pendingExhausts_nil_pending]
        simp only [replayRun, isCacheError]
        simp [exhaustMidPair_nil]
      | cons blk rest =>
        rw [pendingExhausts_nil_pending]
        cases blk with
        | bugsXml bs =>
          cases bs with
          | nil =>
            simp only [replayRun, parse_bugs_details, isCacheError]
            simp [exhaustMidPair_emptyBugs]
          | cons b bs =>
            have hstep : replayRun [] (RawBlock.bugsXml (b :: bs) :: rest)
                = replayRun (b :: bs) rest := by
              simp only [replayRun, parse_bugs_details]
            rw [hstep, exhaustMidPair_bugs_cons]
            exact ih rest.length (by rw [← hn]; simp) rest (b :: bs) rfl
        | activityHtml evs =>
          simp only [replayRun, parse_bugs_details, isCacheError]
          simp [exhaustMidPair_activityHead]
    | cons d ds =>
      cases blocks with
      | nil =>
        simp only [replayRun, isCacheError]
        constructor
        · intro _; exact Or.inl ⟨by simp, by simp⟩
        · intro _; trivial
      | cons blk rest =>
        cases blk with
        | bugsXml bs =>
          simp only [replayRun, parse_bug_activity, isCacheError]
          simp [pendingExhausts_bugsHead]
        | activityHtml evs =>
          have key : isCacheError (replayRun (d :: ds) (RawBlock.activityHtml evs :: rest))
              = isCacheError (replayRun ds rest) := by
            simp only [replayRun, parse_bug_activity]
            cases h : replayRun ds rest with
            | error e => simp
            | ok recs => simp [isCacheError]
          rw [key, pendingExhausts_activity_cons]
          exact ih rest.length (by rw [← hn]; simp) rest ds rfl

/-- Claim C4: `fetch_from_cache` raises a `CacheError` in exactly two
situations: when the connector was constructed with no cache object, and
when, during replay, a bug-details block has been parsed but the cache
sequence is exhausted before the expected paired activity block for one of
its bugs can be read (after a well-paired prefix); in every other case the
replay produces no cache-error (it either completes, or raises a
`ParseError`, which is not a cache-error). -/
theorem fetch_from_cache_cache_errors (cache : Option (List RawBlock)) :
    isCacheError (fetch_from_cache cache).1 = true ↔
      (cache = none ∨ ∃ blocks, cache = some blocks ∧ ExhaustMidPair blocks) := by
  cases cache with
  | none => simp [fetch_from_cache, isCacheError]
  | some blocks =>
    show isCacheError (replayRun [] blocks) = true ↔ _
    rw [replayRun_cacheError_iff blocks.length blocks [] rfl, pendingExhausts_nil_pending]
    simp

/-! ## Sync engine (GrimoireELK/grimoire/ocean/elastic.py) -/

/-- A stored document as seen by the incremental-boundary query: its
`origin` and its `metadata__updated_on` timestamp (seconds). -/
structure OceanDoc where
  origin : String
  updated_on : Nat
deriving DecidableEq

/-- Modelled from the spec: `ElasticSearch.get_last_date(field, filter)`
(grimoire/elastic.py is not among the sources; spec section 4.5 defines
`lastUpdate(fieldName, filter)` as the maximum value of the field among the
documents matching the origin filter, or null if none exist). -/
def get_last_date (docs : List OceanDoc) (originFilter : Option String) : Option Nat :=
  let matching := match originFilter with
    | none => docs
    | some o => docs.filter (fun d => d.origin = o)
  (matching.map (fun d => d.updated_on)).max?

/-- `ElasticOcean.get_last_update_from_es` (lines 83-86): the boundary
query with the origin filter. -/
def get_last_update_from_es (docs : List OceanDoc) (origin : String) : Option Nat :=
  get_last_date docs (some origin)

/-- Python truthiness of the optional `offset` argument: `None` and `0` are
falsy, any other integer is truthy. -/
def offsetTruthy : Option Nat → Bool
  | none => false
  | some n => n != 0

/-- Which connector call one feed pass issues. -/
inductive FetchCall where
  | fromCache
  | fromDate (d : Nat)
  | fromOffset (o : Nat)
  | full
deriving DecidableEq

/-- The boundary computation and connector dispatch of `ElasticOcean.feed`
(lines 109-148): query the store for the max update time filtered by the
connector's origin; a caller-supplied `from_date` takes precedence; the
boundary is discarded when the connector's `fetch` signature has no
`from_date` parameter (`hasFromDateParam`); then dispatch to
`fetch_from_cache`, `fetch(from_date=...)`, `fetch(offset=...)` or the
full `fetch()`. -/
def feedFetchCall (docs : List OceanDoc) (origin : String)
    (hasFromDateParam : Bool) (from_date : Option Nat) (offset : Option Nat)
    (fetch_cache : Bool) : FetchCall :=
  let lu0 := get_last_update_from_es docs origin
  let lu1 := if from_date.isSome then from_date else lu0
  let last_update := if hasFromDateParam then lu1 else none
  if fetch_cache then .fromCache
  else if last_update.isSome && !(offsetTruthy offset) then
    .fromDate (last_update.getD 0)
  else if offsetTruthy offset then .fromOffset (offset.getD 0)
  else .full

/-- Claim C3: in a feed pass the incremental boundary is the maximum stored
update timestamp among the documents of the connector's origin; a supplied
`from_date` override takes precedence over the queried boundary; a fetch
signature without `from_date` discards the boundary and performs a full
fetch; and a null boundary (no documents for that origin) likewise results
in a full fetch. -/
theorem feed_boundary_spec (docs : List OceanDoc) (origin : String) :
    (∀ f : Nat,
        feedFetchCall docs origin true (some f) none false = .fromDate f)
    ∧ (∀ t : Nat, get_last_update_from_es docs origin = some t →
        feedFetchCall docs origin true none none false = .fromDate t
          ∧ (∀ d ∈ docs, d.origin = origin → d.updated_on ≤ t)
          ∧ (∃ d ∈ docs, d.origin = origin ∧ d.updated_on = t))
    ∧ (∀ from_date : Option Nat,
        feedFetchCall docs origin false from_date none false = .full)
    ∧ (get_last_update_from_es docs origin = none →
        feedFetchCall docs origin true none none false = .full
          ∧ ∀ d ∈ docs, d.origin ≠ origin) := by
  refine ⟨?_, ?_, ?_, ?_⟩
  · intro f
    simp [feedFetchCall, offsetTruthy]
  · intro t ht
    refine ⟨by simp [feedFetchCall, offsetTruthy, ht], ?_, ?_⟩
    · intro d hd hor
      have ht2 := ht
      simp only [get_last_update_from_es, get_last_date] at ht2
      exact (List.max?_eq_some_iff'.mp ht2).2 _
        (List.mem_map_of_mem _ (List.mem_filter.mpr ⟨hd, by simp [hor]⟩))
    · have ht2 := ht
      simp only [get_last_update_from_es, get_last_date] at ht2
      obtain ⟨d, hd, hupd⟩ := List.mem_map.mp (List.max?_eq_some_iff'.mp ht2).1
      exact ⟨d, (List.mem_filter.mp hd).1, by simpa using (List.mem_filter.mp hd).2, hupd⟩
  · intro from_date
    simp [feedFetchCall, offsetTruthy]
  · intro ht
    refine ⟨by simp [feedFetchCall, offsetTruthy, ht], ?_⟩
    intro d hd hor
    have ht2 := ht
    simp only [get_last_update_from_es, get_last_date] at ht2
    have h3 : docs.filter (fun d => d.origin = origin) = [] :=
      List.map_eq_nil_iff.mp (List.max?_eq_none_iff.mp ht2)
    have : d ∈ docs.filter (fun d => d.origin = origin) :=
      List.mem_filter.mpr ⟨hd, by simp [hor]⟩
    rw [h3] at this
    exact absurd this (List.not_mem_nil d)

/-- Witness for C3 at concrete stores: boundary 9 is the max over origin
`o` (the document of origin `x` is ignored); an override of 7 wins; a
connector without `from_date` gets a full fetch; an empty store gives a
full fetch. -/
theorem feed_boundary_spec_witness :
    feedFetchCall [⟨"o", 5⟩, ⟨"o", 9⟩, ⟨"x", 99⟩] "o" true none none false = .fromDate 9
    ∧ feedFetchCall [⟨"o", 5⟩] "o" true (some 7) none false = .fromDate 7
    ∧ feedFetchCall [⟨"o", 5⟩] "o" false none none false = .full
    ∧ feedFetchCall [] "o" true none none false = .full := by
  refine ⟨?_, ?_, ?_, ?_⟩
  · exact ((feed_boundary_spec [⟨"o", 5⟩, ⟨"o", 9⟩, ⟨"x", 99⟩] "o").2.1 9 (by decide)).1
  · exact (feed_boundary_spec [⟨"o", 5⟩] "o").1 7
  · exact (feed_boundary_spec [⟨"o", 5⟩] "o").2.2.1 none
  · exact ((feed_boundary_spec [] "o").2.2.2 (by decide)).1

/-- `ElasticOcean._items_to_es` (lines 174-185): the store calls one flush
performs: none when the batch is empty (early return, no store call),
otherwise a single `bulk_upload_sync` call with the whole batch. -/
def items_to_es (pack : List α) : List (List α) :=
  if pack.length = 0 then [] else [pack]

/-- The accumulation loop of `ElasticOcean.feed` (lines 149-163): for each
(already transformed) item, first flush the running pack once it holds
`max_items_bulk` items, then append the item unless `drop_item` holds.
Returns (mid-pass flushed packs, final pack, dropped count). -/
def feedLoop (bulk : Nat) (drop : α → Bool) :
    List α → List α → List (List α) × List α × Nat
  | pack, [] => ([], pack, 0)
  | pack, i :: rest =>
    let fp := if bulk ≤ pack.length then ([pack], ([] : List α)) else ([], pack)
    let pack2 := if drop i then fp.2 else fp.2 ++ [i]
    let r := feedLoop bulk drop pack2 rest
    (fp.1 ++ r.1, r.2.1, (if drop i then 1 else 0) + r.2.2)

/-- The sequence of `bulk_upload_sync` calls one feed pass performs: each
mid-pass flush and the single end-of-pass flush (line 163), every one of
them going through `_items_to_es`, which skips empty batches. -/
def feedStoreCalls (bulk : Nat) (drop : α → Bool) (items : List α) : List (List α) :=
  let r := feedLoop bulk drop [] items
  ((r.1 ++ [r.2.1]).map items_to_es).flatten

theorem feedLoop_spec (bulk : Nat) (drop : α → Bool) (hb : 1 ≤ bulk) :
    ∀ (items pack : List α), pack.length ≤ bulk →
      (∀ p ∈ (feedLoop bulk drop pack items).1, p.length = bulk)
      ∧ (feedLoop bulk drop pack items).1.flatten ++ (feedLoop bulk drop pack items).2.1
          = pack ++ items.filter (fun i => !drop i)
      ∧ (feedLoop bulk drop pack items).2.1.length ≤ bulk := by
  intro items
  induction items with
  | nil =>
    intro pack h
    exact ⟨by simp [feedLoop], by simp [feedLoop], h⟩
  | cons i rest ih =>
    intro pack h
    by_cases hfull : bulk ≤ pack.length
    · have hlen : pack.length = bulk := le_antisymm h hfull
      by_cases hd : drop i = true
      · have hstep : feedLoop bulk drop pack (i :: rest)
            = ([pack] ++ (feedLoop bulk drop [] rest).1,
               (feedLoop bulk drop [] rest).2.1,
               1 + (feedLoop bulk drop [] rest).2.2) := by
          simp [feedLoop, hfull, hd]
        obtain ⟨ha, hb2, hc⟩ := ih [] (by simp)
        rw [hstep]
        refine ⟨?_, ?_, hc⟩
        · intro p hp
          rcases List.mem_append.mp hp with hp | hp
          · simp only [List.mem_singleton] at hp; rw [hp]; exact hlen
          · exact ha p hp
        · simp only [List.flatten_append, List.flatten_cons, List.flatten_nil,
            List.append_nil, List.append_assoc]
          rw [hb2, List.filter_cons_of_neg (by simp [hd])]
          simp
      · simp only [Bool.not_eq_true] at hd
        have hstep : feedLoop bulk drop pack (i :: rest)
            = ([pack] ++ (feedLoop bulk drop [i] rest).1,
               (feedLoop bulk drop [i] rest).2.1,
               0 + (feedLoop bulk drop [i] rest).2.2) := by
          simp [feedLoop, hfull, hd]
        obtain ⟨ha, hb2, hc⟩ := ih [i] (by simpa using hb)
        rw [hstep]
        refine ⟨?_, ?_, hc⟩
        · intro p hp
          rcases List.mem_append.mp hp with hp | hp
          · simp only [List.mem_singleton] at hp; rw [hp]; exact hlen
          · exact ha p hp
        · simp only [List.flatten_append, List.flatten_cons, List.flatten_nil,
            List.append_nil, List.append_assoc]
          rw [hb2, List.filter_cons_of_pos (by simp [hd])]
          simp
    · have hlt : pack.length < bulk := lt_of_not_ge hfull
      by_cases hd : drop i = true
      · have hstep : feedLoop bulk drop pack (i :: rest)
            = ((feedLoop bulk drop pack rest).1,
               (feedLoop bulk drop pack rest).2.1,
               1 + (feedLoop bulk drop pack rest).2.2) := by
          simp [feedLoop, hfull, hd]
        obtain ⟨ha, hb2, hc⟩ := ih pack (le_of_lt hlt)
        rw [hstep]
        refine ⟨ha, ?_, hc⟩
        rw [hb2, List.filter_cons_of_neg (by simp [hd])]
      · simp only [Bool.not_eq_true] at hd
        have hstep : feedLoop bulk drop pack (i :: rest)
            = ((feedLoop bulk drop (pack ++ [i]) rest).1,
               (feedLoop bulk drop (pack ++ [i]) rest).2.1,
               0 + (feedLoop bulk drop (pack ++ [i]) rest).2.2) := by
          simp [feedLoop, hfull, hd]
        obtain ⟨ha, hb2, hc⟩ := ih (pack ++ [i]) (by simp; omega)
        rw [hstep]
        refine ⟨ha, ?_, hc⟩
        rw [hb2, List.filter_cons_of_pos (by simp [hd])]
        simp

theorem items_to_es_eq (pack : List α) :
    items_to_es pack = if pack.isEmpty then [] else [pack] := by
  cases pack with
  | nil => rfl
  | cons a l => simp [items_to_es]

theorem flatten_map_items_to_es (mids : List (List α))
    (h : ∀ p ∈ mids, p ≠ []) :
    (mids.map items_to_es).flatten = mids := by
  induction mids with
  | nil => rfl
  | cons p ps ih =>
    simp only [List.map_cons, List.flatten_cons,
      ih (fun q hq => h q (List.mem_cons_of_mem _ hq))]
    rw [items_to_es_eq, if_neg (by simpa using h p (List.mem_cons_self _ _))]
    rfl

/-- Claim C5: during one feed pass (with `max_items_bulk ≥ 1`), surviving
records accumulate into a batch flushed to the store whenever its length
reaches `max_items_bulk` (every mid-pass flush carries exactly
`max_items_bulk` items), the remaining partial batch is flushed exactly
once at the end (the store-call list is the mid-pass flushes followed by
the final batch when non-empty), every surviving record is submitted
exactly once across all flushes in order, and flushing an empty batch
performs no store call. -/
theorem feed_batching (bulk : Nat) (drop : α → Bool) (items : List α)
    (hb : 1 ≤ bulk) :
    (∀ p ∈ (feedLoop bulk drop [] items).1, p.length = bulk)
    ∧ feedStoreCalls bulk drop items
        = (feedLoop bulk drop [] items).1
          ++ (if (feedLoop bulk drop [] items).2.1.isEmpty then []
              else [(feedLoop bulk drop [] items).2.1])
    ∧ (feedStoreCalls bulk drop items).flatten = items.filter (fun i => !drop i)
    ∧ items_to_es ([] : List α) = [] := by
  obtain ⟨ha, hb2, hc⟩ := feedLoop_spec bulk drop hb items [] (by simp)
  have hne : ∀ p ∈ (feedLoop bulk drop [] items).1, p ≠ [] := by
    intro p hp he
    have := ha p hp
    rw [he] at this
    simp at this
    omega
  have hcalls : feedStoreCalls bulk drop items
      = (feedLoop bulk drop [] items).1
        ++ (if (feedLoop bulk drop [] items).2.1.isEmpty then []
            else [(feedLoop bulk drop [] items).2.1]) := by
    simp only [feedStoreCalls, List.map_append, List.flatten_append,
      flatten_map_items_to_es _ hne, List.map_cons, List.map_nil,
      List.flatten_cons, List.flatten_nil, List.append_nil, items_to_es_eq]
  refine ⟨ha, hcalls, ?_, rfl⟩
  rw [hcalls, List.flatten_append]
  cases hfin : (feedLoop bulk drop [] items).2.1 with
  | nil =>
    rw [hfin] at hb2
    simpa using hb2
  | cons a l =>
    rw [hfin] at hb2
    simpa using hb2

/-- Witness for C5 at a concrete pass: bulk size 2 over six items with item
3 dropped; the surviving records reach the store exactly once, in order,
and the empty batch performs no call. -/
theorem feed_batching_witness :
    (feedStoreCalls 2 (fun n => n == 3) [1, 2, 3, 4, 5, 6]).flatten
        = [1, 2, 4, 5, 6]
    ∧ items_to_es ([] : List Nat) = [] := by
  constructor
  · rw [(feed_batching 2 (fun n => n == 3) [1, 2, 3, 4, 5, 6] (by decide)).2.2.1]
    decide
  · exact (feed_batching 2 (fun n => n == 3) ([] : List Nat) (by decide)).2.2.2

/-- The parsed JSON body of a store page response: the optional
`_scroll_id` key and the optional `hits.hits[*]._source` list. -/
structure RJson (α : Type _) where
  scroll_id : Option String
  hits : Option (List α)
deriving DecidableEq

/-- A page response from the index store as `_get_elastic_items` sees it:
the store may be unreachable (`requests.post` raises), the body may not be
JSON (`r.json()` raises `ValueError`), the body may parse to a falsy value
(`null`, `{}`, ...), or it parses to a dictionary. -/
inductive StoreResponse (α : Type _) where
  | unreachable
  | invalidJson (text : String)
  | jsonBody (rjson : Option (RJson α))
deriving DecidableEq

/-- Outcome of a Python call: a value, or a raised exception (by name). -/
inductive PyResult (α : Type _) where
  | ok (val : α)
  | raised (exc : String)
deriving DecidableEq

/-- `ElasticOcean._get_elastic_items` (lines 188-265), error paths
included.  The `requests.post` call sits before the `try`, so an
unreachable store raises `ConnectionError` uncaught.  A non-JSON body makes
`r.json()` raise inside the `try`; the bare `except` logs two warnings and
falls through, but `rjson` was never assigned, so the following
`if rjson and "_scroll_id" in rjson` raises `UnboundLocalError`.  A parsed
body yields the hits' sources (or `[]` with a warning when the `hits` key
is absent or the body is falsy) and the new scroll id (or `None`).
Returns (items, new scroll id). -/
def getElasticItems {α : Type _} (resp : StoreResponse α) :
    PyResult (List α × Option String) :=
  match resp with
  | .unreachable => .raised "ConnectionError"
  | .invalidJson _ => .raised "UnboundLocalError"
  | .jsonBody rjson =>
    let scroll := match rjson with
      | some j => j.scroll_id
      | none => none
    let items := match rjson with
      | some j => j.hits.getD []
      | none => []
    .ok (items, scroll)

/-- Claim C6 evaluated on the code: the claim says a page request whose
response is unreachable or whose body is not valid JSON logs a warning and
returns an empty item list instead of raising.  The code does not: a
non-JSON body raises `UnboundLocalError` (the `except` handler logs the
warnings but `rjson` is unbound at the following `if`), and an unreachable
store raises `ConnectionError` before the `try` is even entered.  The only
gracefully handled case is a body that parses to JSON without the expected
keys, which indeed yields `[]`. -/
theorem get_elastic_items_error_paths :
    getElasticItems (StoreResponse.invalidJson "<html>" : StoreResponse Nat)
        = .raised "UnboundLocalError"
    ∧ getElasticItems (StoreResponse.unreachable : StoreResponse Nat)
        = .raised "ConnectionError"
    ∧ getElasticItems (StoreResponse.jsonBody (α := Nat) (some ⟨none, none⟩))
        = .ok ([], none)
    ∧ getElasticItems (StoreResponse.jsonBody (α := Nat) none) = .ok ([], none) :=
  ⟨rfl, rfl, rfl, rfl⟩

/-- The read-back iterator state: `buffer` is `iter_items`, `remaining` the
documents the store's cursor has not yet returned (in the order the scan
query sorts them), `scroll` whether a scroll id is held, `page`
`elastic_page`. -/
structure OceanIter (α : Type _) where
  buffer : List α
  remaining : List α
  scroll : Bool
  page : Nat

/-- `ElasticOcean.__iter__` (lines 267-275): reset the scroll id, set the
page size and load the first page with `_get_elastic_items`; the store
answers with the first `page` documents and a scroll token. -/
def oceanIterStart (docs : List α) (page : Nat) : OceanIter α :=
  ⟨docs.take page, docs.drop page, true, page⟩

/-- `ElasticOcean.__next__` (lines 277-287): `pop()` the buffer from its
end while it is non-empty; once it empties, if a scroll id is held, refill
the buffer with the next page (`_get_elastic_items` in scroll mode) and pop
that (the recursive `self.__next__()` call); raise `StopIteration` (here
`none`) when the refilled buffer is still empty or no scroll id is held. -/
def oceanNext (it : OceanIter α) : Option (α × OceanIter α) :=
  match it.buffer.getLast? with
  | some x => some (x, ⟨it.buffer.dropLast, it.remaining, it.scroll, it.page⟩)
  | none =>
    if it.scroll then
      match (it.remaining.take it.page).getLast? with
      | some x => some (x, ⟨(it.remaining.take it.page).dropLast,
          it.remaining.drop it.page, true, it.page⟩)
      | none => none
    else none

/-- Documents still to be handed out by the iterator. -/
def oceanMeasure (it : OceanIter α) : Nat :=
  it.buffer.length + it.remaining.length

/-- Fuel-driven drain of the iterator (structural recursion so the kernel
can evaluate it). -/
def oceanDrainGo (fuel : Nat) (it : OceanIter α) : List α :=
  match fuel with
  | 0 => []
  | fuel + 1 =>
    match oceanNext it with
    | none => []
    | some (x, it2) => x :: oceanDrainGo fuel it2

/-- Drain the iterator to a list: the sequence a `for` loop observes before
`StopIteration`.  `oceanMeasure` many steps always suffice. -/
def oceanDrain (it : OceanIter α) : List α :=
  oceanDrainGo (oceanMeasure it) it

theorem oceanNext_measure (it : OceanIter α) (x : α) (it2 : OceanIter α)
    (h : oceanNext it = some (x, it2)) :
    oceanMeasure it2 + 1 = oceanMeasure it := by
  unfold oceanNext at h
  cases hb : it.buffer.getLast? with
  | some y =>
    rw [hb] at h
    simp only [Option.some.injEq, Prod.mk.injEq] at h
    obtain ⟨-, h2⟩ := h
    subst h2
    have hne : it.buffer ≠ [] := by
      intro he; rw [he] at hb; simp at hb
    have hpos : 0 < it.buffer.length := List.length_pos.mpr hne
    simp only [oceanMeasure, List.length_dropLast]
    omega
  | none =>
    rw [hb] at h
    have hbuf : it.buffer = [] := List.getLast?_eq_none_iff.mp hb
    by_cases hs : it.scroll = true
    · rw [if_pos hs] at h
      cases ht : (it.remaining.take it.page).getLast? with
      | none => rw [ht] at h; cases h
      | some y =>
        rw [ht] at h
        simp only [Option.some.injEq, Prod.mk.injEq] at h
        obtain ⟨-, h2⟩ := h
        subst h2
        have hne : it.remaining.take it.page ≠ [] := by
          intro he; rw [he] at ht; simp at ht
        have hpos : 0 < (it.remaining.take it.page).length := List.length_pos.mpr hne
        simp only [oceanMeasure, List.length_dropLast, List.length_take,
          List.length_drop, hbuf, List.length_nil] at hpos ⊢
        omega
    · rw [if_neg hs] at h; cases h

theorem oceanDrainGo_eq :
    ∀ (f : Nat) (it : OceanIter α), oceanMeasure it ≤ f →
      oceanDrainGo f it = oceanDrain it := by
  intro f
  induction f with
  | zero =>
    intro it hm
    simp only [oceanMeasure, Nat.le_zero, Nat.add_eq_zero] at hm
    have hzero : oceanMeasure it = 0 := by
      simp [oceanMeasure, hm.1, hm.2]
    unfold oceanDrain
    rw [hzero]
  | succ f ih =>
    intro it hm
    cases hnext : oceanNext it with
    | none =>
      have h1 : oceanDrainGo (f + 1) it = [] := by
        simp only [oceanDrainGo, hnext]
      have h2 : oceanDrain it = [] := by
        unfold oceanDrain
        cases hmm : oceanMeasure it with
        | zero => rfl
        | succ m => simp only [oceanDrainGo, hnext]
      rw [h1, h2]
    | some p =>
      obtain ⟨x, it2⟩ := p
      have hme := oceanNext_measure it x it2 hnext
      have h1 : oceanDrainGo (f + 1) it = x :: oceanDrainGo f it2 := by
        simp only [oceanDrainGo, hnext]
      have h2 : oceanDrain it = x :: oceanDrainGo (oceanMeasure it2) it2 := by
        unfold oceanDrain
        rw [← hme]
        simp only [oceanDrainGo, hnext]
      rw [h1, h2, ih it2 (by omega)]
      rfl

theorem oceanDrain_none (it : OceanIter α) (h : oceanNext it = none) :
    oceanDrain it = [] := by
  unfold oceanDrain
  cases hmm : oceanMeasure it with
  | zero => rfl
  | succ m => simp only [oceanDrainGo, h]

theorem oceanDrain_some (it : OceanIter α) (x : α) (it2 : OceanIter α)
    (h : oceanNext it = some (x, it2)) :
    oceanDrain it = x :: oceanDrain it2 := by
  have hme := oceanNext_measure it x it2 h
  unfold oceanDrain
  rw [← hme]
  simp only [oceanDrainGo, h]

theorem oceanDrain_buffer (page : Nat) (scroll : Bool) :
    ∀ (n : Nat) (buf rem : List α), buf.length = n →
      oceanDrain ⟨buf, rem, scroll, page⟩
        = buf.reverse ++ oceanDrain ⟨[], rem, scroll, page⟩ := by
  intro n
  induction n using Nat.strong_induction_on with
  | _ n ih =>
    intro buf rem hn
    cases hb : buf.getLast? with
    | none =>
      have hbuf : buf = [] := List.getLast?_eq_none_iff.mp hb
      subst hbuf
      simp
    | some x =>
      have hnext : oceanNext (⟨buf, rem, scroll, page⟩ : OceanIter α)
          = some (x, ⟨buf.dropLast, rem, scroll, page⟩) := by
        unfold oceanNext
        simp only [hb]
      rw [oceanDrain_some _ _ _ hnext]
      have hne : buf ≠ [] := by intro he; rw [he] at hb; simp at hb
      have hpos : 0 < buf.length := List.length_pos.mpr hne
      have hlen : buf.dropLast.length < n := by
        subst hn
        simp only [List.length_dropLast]
        omega
      rw [ih buf.dropLast.length hlen buf.dropLast rem rfl]
      have hrev : buf.reverse = x :: buf.dropLast.reverse := by
        conv_lhs => rw [← List.dropLast_append_getLast? x hb]
        rw [List.reverse_append]
        rfl
      rw [hrev]
      rfl

theorem oceanDrain_pages (page : Nat) (hp : 1 ≤ page) :
    ∀ (n : Nat) (rem : List α), rem.length = n →
      oceanDrain ⟨[], rem, true, page⟩
        = ((chunksOf page rem).map List.reverse).flatten := by
  intro n
  induction n using Nat.strong_induction_on with
  | _ n ih =>
    intro rem hn
    cases rem with
    | nil =>
      have hnext : oceanNext (⟨[], [], true, page⟩ : OceanIter α) = none := by
        unfold oceanNext
        simp
      rw [oceanDrain_none _ hnext]
      rfl
    | cons a l =>
      obtain ⟨p, rfl⟩ : ∃ p, page = p + 1 := ⟨page - 1, by omega⟩
      have htake : ((a :: l).take (p + 1)) = a :: l.take p := rfl
      have hne : (a :: l.take p) ≠ [] := List.cons_ne_nil _ _
      cases hgl : (a :: l.take p).getLast? with
      | none => exact absurd (List.getLast?_eq_none_iff.mp hgl) hne
      | some y =>
        have hnext : oceanNext (⟨[], a :: l, true, p + 1⟩ : OceanIter α)
            = some (y, ⟨(a :: l.take p).dropLast, (a :: l).drop (p + 1), true, p + 1⟩) := by
          unfold oceanNext
          simp only [List.getLast?_nil, htake, hgl]
          rw [if_pos trivial]
        have hdrop : (a :: l).drop (p + 1) = l.drop p := rfl
        have hlen : (l.drop p).length < n := by
          subst hn
          simp only [List.length_drop, List.length_cons]
          omega
        rw [oceanDrain_some _ _ _ hnext, hdrop,
          oceanDrain_buffer (p + 1) true (a :: l.take p).dropLast.length
            (a :: l.take p).dropLast (l.drop p) rfl,
          ih (l.drop p).length hlen (l.drop p) rfl]
        rw [chunksOf_cons]
        have hk : p + 1 - 1 = p := by omega
        rw [hk]
        simp only [List.map_cons, List.flatten_cons]
        have hrev : (a :: l.take p).reverse = y :: (a :: l.take p).dropLast.reverse := by
          conv_lhs => rw [← List.dropLast_append_getLast? y hgl]
          rw [List.reverse_append]
          rfl
        rw [hrev]
        rfl

theorem oceanDrain_start (docs : List α) (page : Nat) (hp : 1 ≤ page) :
    oceanDrain (oceanIterStart docs page)
      = ((chunksOf page docs).map List.reverse).flatten := by
  unfold oceanIterStart
  rw [oceanDrain_buffer page true (docs.take page).length _ _ rfl,
      oceanDrain_pages page hp (docs.drop page).length _ rfl]
  cases docs with
  | nil => simp
  | cons a l =>
    obtain ⟨p, rfl⟩ : ∃ p, page = p + 1 := ⟨page - 1, by omega⟩
    rw [chunksOf_cons]
    have hk : p + 1 - 1 = p := by omega
    rw [hk]
    simp only [List.take_succ_cons, List.drop_succ_cons, List.map_cons,
      List.flatten_cons]

theorem flatten_map_reverse_length (L : List (List α)) :
    ((L.map List.reverse).flatten).length = L.flatten.length := by
  induction L with
  | nil => rfl
  | cons l ls ih => simp [ih]

/-- Claim C9: for a store whose scan matches `E` documents and any page
size `p` with `1 ≤ p ≤ E`, the read-back iterator yields exactly `E`
documents and then raises `StopIteration` (`oceanDrain` is the complete
finite sequence a `for` loop observes): it buffers one page at a time,
refills from the cursor when the buffer empties while a scroll token
remains, and stops exactly when a refill returns zero documents or no
scroll token remains. -/
theorem ocean_iter_exhaustion (docs : List α) (page : Nat)
    (hp1 : 1 ≤ page) (hp2 : page ≤ docs.length) :
    (oceanDrain (oceanIterStart docs page)).length = docs.length := by
  rw [oceanDrain_start docs page hp1, flatten_map_reverse_length,
      chunksOf_flatten page hp1 docs.length docs rfl]

/-- Witness for C9: three documents with page size one are all yielded. -/
theorem ocean_iter_exhaustion_witness :
    (oceanDrain (oceanIterStart ([10, 20, 30] : List Nat) 1)).length = 3 := by
  have h := ocean_iter_exhaustion ([10, 20, 30] : List Nat) 1 (by decide) (by decide)
  simpa using h

/-- Claim C10 (implicit): every page buffered by the read-back iterator is
yielded in the reverse of the order in which the store returned it, because
`__next__` pops from the end of the buffered list; even though the scan
query requests ascending order by the update-date field, the consumer sees
each page reversed: the drained sequence is the concatenation of the
reversed pages. -/
theorem ocean_iter_reverses_pages (docs : List α) (page : Nat) (hp : 1 ≤ page) :
    oceanDrain (oceanIterStart docs page)
      = ((chunksOf page docs).map List.reverse).flatten :=
  oceanDrain_start docs page hp

/-- Witness for C10: five ascending documents with page size two come out
as pages `[2,1]`, `[4,3]`, `[5]`. -/
theorem ocean_iter_reverses_pages_witness :
    oceanDrain (oceanIterStart ([1, 2, 3, 4, 5] : List Nat) 2) = [2, 1, 4, 3, 5] := by
  rw [ocean_iter_reverses_pages ([1, 2, 3, 4, 5] : List Nat) 2 (by decide)]
  decide
